import Mathlib

/-!
Verification of the borrowing / inventory / fine domain logic of a
browser-based library-management system.

The TypeScript services are shallowly embedded: JavaScript numbers that
only ever hold integers (copy counts, quantities, millisecond timestamps,
rupee amounts) are modelled as `Int`; ISO date strings are modelled by the
millisecond timestamp they parse to (the ISO round trip is injective, and
`Math.ceil` over double division of such integers agrees with exact
rational ceiling, as the quotients involved are far below the precision at
which IEEE doubles could round an off-integer ratio to an integer).
Fallible operations return a success flag together with the new state,
exactly as the services return a boolean observable and write the mutated
collection back to storage.
-/

namespace LibraryMS

/-- One catalog entry, from `book.model.ts` / `book.service.ts`; fields not
touched by the borrow/return logic (title, author, isbn, rating, ...) are
omitted as inert. -/
structure Book where
  id : String
  availableCopies : Int
  totalCopies : Int
  isAvailable : Bool
deriving Repr, DecidableEq

/-- JavaScript `quantities[i] || 1`: a missing entry and the (falsy) value
`0` both become `1`; any other number, including a negative one, is kept.
Pairs each book id of a `borrowBooks`/`returnBooks` call with its
effective quantity. -/
def effQuantities : List String → List Int → List (String × Int)
  | [], _ => []
  | id :: ids, [] => (id, 1) :: effQuantities ids []
  | id :: ids, q :: qs => (id, if q = 0 then 1 else q) :: effQuantities ids qs

/-- `books.find(b => b.id === bookId)`: first catalog entry with the id. -/
def findBook (books : List Book) (bookId : String) : Option Book :=
  books.find? (fun b => b.id == bookId)

/-- Body of `updateBookAvailability` as invoked per update inside
`updateMultipleBooksAvailability`: replace the availableCopies of the
first book with the given id and recompute `isAvailable` as
`availableCopies > 0`; a missing id leaves the catalog unchanged. -/
def setBookAvailability : List Book → String → Int → List Book
  | [], _, _ => []
  | b :: bs, bookId, v =>
    if b.id == bookId then
      { b with availableCopies := v, isAvailable := decide (0 < v) } :: bs
    else
      b :: setBookAvailability bs bookId v

/-- `BookService.updateMultipleBooksAvailability`: apply each
`{bookId, availableCopies}` update in order. -/
def updateMultipleBooksAvailability (books : List Book) (updates : List (String × Int)) :
    List Book :=
  updates.foldl (fun bs u => setBookAvailability bs u.1 u.2) books

/-- The update-collecting loop of `BookService.borrowBooks`: for each
requested (id, quantity), look the book up in the pre-call catalog
snapshot; if it is missing or `availableCopies < quantity` the whole call
fails (`none`), otherwise record the decremented availability. -/
def borrowUpdates (books : List Book) : List (String × Int) → Option (List (String × Int))
  | [] => some []
  | (bookId, q) :: rest =>
    match findBook books bookId with
    | some b =>
      if q ≤ b.availableCopies then
        (borrowUpdates books rest).map (fun ups => (bookId, b.availableCopies - q) :: ups)
      else
        none
    | none => none

/-- `BookService.borrowBooks(bookIds, quantities)`: returns the success
flag and the catalog after the call (unchanged when any requested book is
missing or short of copies — the updates collected so far are discarded). -/
def borrowBooks (books : List Book) (bookIds : List String) (quantities : List Int) :
    Bool × List Book :=
  match borrowUpdates books (effQuantities bookIds quantities) with
  | some ups => (true, updateMultipleBooksAvailability books ups)
  | none => (false, books)

/-- The update-collecting loop of `BookService.returnBooks`: a found book
gets `min(totalCopies, availableCopies + quantity)`; missing ids are
silently skipped. -/
def returnUpdates (books : List Book) (pairs : List (String × Int)) :
    List (String × Int) :=
  pairs.filterMap (fun p =>
    (findBook books p.1).map (fun b => (p.1, min b.totalCopies (b.availableCopies + p.2))))

/-- `BookService.returnBooks(bookIds, quantities)`: always reports success;
each found book's availability is credited and capped at `totalCopies`. -/
def returnBooks (books : List Book) (bookIds : List String) (quantities : List Int) :
    Bool × List Book :=
  (true, updateMultipleBooksAvailability books (returnUpdates books (effQuantities bookIds quantities)))

/-- The documented catalog invariant `0 ≤ availableCopies ≤ totalCopies`. -/
def BookInv (b : Book) : Prop := 0 ≤ b.availableCopies ∧ b.availableCopies ≤ b.totalCopies

instance : DecidablePred BookInv := fun b => by unfold BookInv; infer_instance

/-- The invariant for a whole catalog. -/
def CatalogInv (books : List Book) : Prop := ∀ b ∈ books, BookInv b

instance : DecidablePred CatalogInv := fun books => by unfold CatalogInv; infer_instance

/-- One inventory operation of the claimed sequences: a `borrowBooks` or a
`returnBooks` call with its raw argument lists. -/
inductive InvOp where
  | borrow (bookIds : List String) (quantities : List Int)
  | ret (bookIds : List String) (quantities : List Int)
deriving Repr

/-- The catalog after one operation (the success flag is dropped). -/
def applyInvOp (books : List Book) : InvOp → List Book
  | .borrow ids qs => (borrowBooks books ids qs).2
  | .ret ids qs => (returnBooks books ids qs).2

/-- The catalog after a sequence of borrow/return calls. -/
def runInvOps (books : List Book) (ops : List InvOp) : List Book :=
  ops.foldl applyInvOp books

/-- All raw quantities of an operation are nonnegative (what every UI call
site guarantees: quantity inputs at or below zero are rejected or dropped
before the service is called). -/
def InvOpNonneg : InvOp → Prop
  | .borrow _ qs => ∀ q ∈ qs, 0 ≤ q
  | .ret _ qs => ∀ q ∈ qs, 0 ≤ q

instance : DecidablePred InvOpNonneg := fun op => by
  cases op <;> (unfold InvOpNonneg; infer_instance)

/-- A requested (bookId, quantity) pair the `borrowBooks` loop rejects:
the book is absent from the catalog, or short of copies. -/
def InsufficientAt (books : List Book) (p : String × Int) : Prop :=
  match findBook books p.1 with
  | none => True
  | some b => b.availableCopies < p.2

instance (books : List Book) : DecidablePred (InsufficientAt books) := fun p => by
  unfold InsufficientAt; exact match findBook books p.1 with
  | none => inferInstanceAs (Decidable True)
  | some _ => inferInstanceAs (Decidable (_ < _))

/-! ### Borrow ledger (BooksComponent.confirmBorrow / saveBorrowRecord) -/

/-- Milliseconds per day, the divisor of every date difference in the
source (`1000 * 60 * 60 * 24`). -/
def msPerDay : Int := 86400000

/-- `BORROW_PERIOD_DAYS * 24 * 60 * 60 * 1000`: the fixed 14-day borrow
period in milliseconds. -/
def borrowPeriodMs : Int := 14 * msPerDay

/-- One persisted row of the `borrow_records` collection, as written by
`BooksComponent.saveBorrowRecord`. Date strings are modelled by their
millisecond timestamps; an absent field is `none`. Title/author copies and
the free-text note are inert and omitted. -/
structure BorrowRecord where
  id : String
  memberId : String
  bookId : String
  borrowDate : Int
  dueDate : Option Int
  returnDate : Option Int
deriving Repr, DecidableEq

/-- The inventory mutation of `BooksComponent.confirmBorrow`: subtract the
quantity from the first matching book; `isAvailable` is set to false only
when the result lands exactly on zero (otherwise it keeps its old value). -/
def decrementFirstBook : List Book → String → Int → List Book
  | [], _, _ => []
  | b :: bs, bookId, q =>
    if b.id == bookId then
      { b with availableCopies := b.availableCopies - q,
               isAvailable := if b.availableCopies - q = 0 then false else b.isAvailable } :: bs
    else
      b :: decrementFirstBook bs bookId q

/-- The `confirmBorrow` loop over the selection map. -/
def confirmBorrowBooks (books : List Book) (selected : List (String × Int)) : List Book :=
  selected.foldl (fun bs p => decrementFirstBook bs p.1 p.2) books

/-- The singleton expansion of `confirmBorrow`: each selected
`(bookId, quantity)` contributes `quantity` copies of the book id. -/
def expandBorrowItems (selected : List (String × Int)) : List String :=
  selected.flatMap (fun p => List.replicate p.2.toNat p.1)

/-- `BooksComponent.saveBorrowRecord`: append one singleton record per
expanded copy to the existing ledger; ids are `BR` + the call timestamp +
the index of the row within the batch, borrow date is the call timestamp,
due date is the call timestamp plus the 14-day period. -/
def saveBorrowRecord (existing : List BorrowRecord) (memberId : String) (now : Int)
    (selected : List (String × Int)) : List BorrowRecord :=
  existing ++ (expandBorrowItems selected).enum.map (fun pr =>
    { id := "BR" ++ toString now ++ "_" ++ toString pr.1,
      memberId := memberId,
      bookId := pr.2,
      borrowDate := now,
      dueDate := some (now + borrowPeriodMs),
      returnDate := none })

/-- `BooksComponent.confirmBorrow`: decrement the inventory of every
selected book and persist the expanded singleton borrow records. -/
def confirmBorrow (books : List Book) (existing : List BorrowRecord)
    (selected : List (String × Int)) (memberId : String) (now : Int) :
    List Book × List BorrowRecord :=
  (confirmBorrowBooks books selected, saveBorrowRecord existing memberId now selected)

/-- Modelled from the spec: no code under src/ ever sets a BorrowRecord's
return timestamp (the ledger-side half of returning is missing from the
repository; only the inventory half, `BookService.returnBooks`, exists).
Per §4.3 `recordReturn(recordId) -> success|NotFound`: set the return
timestamp to now on the matching record only if it has none; an
already-returned or missing record is a no-op. Returns the record that was
open (for the inventory credit) together with the updated ledger. -/
def recordReturn : List BorrowRecord → String → Int → Option BorrowRecord × List BorrowRecord
  | [], _, _ => (none, [])
  | r :: rs, recordId, now =>
    if r.id == recordId then
      match r.returnDate with
      | none => (some r, { r with returnDate := some now } :: rs)
      | some _ => (none, r :: rs)
    else
      let res := recordReturn rs recordId now
      (res.1, r :: res.2)

/-- Modelled from the spec: the composite return flow — only a successful
`recordReturn` credits the inventory, via `BookService.returnBooks` with
quantity 1 (§4.3 with §8: "Returning a BorrowRecord increases the book's
`available` by 1, capped at `total`"). -/
def returnBorrowRecord (books : List Book) (records : List BorrowRecord)
    (recordId : String) (now : Int) : List Book × List BorrowRecord :=
  match recordReturn records recordId now with
  | (some r, records2) => ((returnBooks books [r.bookId] [1]).2, records2)
  | (none, records2) => (books, records2)

/-! ### Fine calculation and generation (FineService) -/

/-- `FineService.DAILY_FINE_RATE` (₹5 per day). -/
def DAILY_FINE_RATE : Int := 5

/-- Ceiling division for a positive divisor, the exact value of JavaScript
`Math.ceil(a / b)` at every integer pair this development applies it to
(IEEE rounding cannot move an off-integer quotient of these magnitudes
across an integer). -/
def ceilDiv (a b : Int) : Int := (a + b - 1) / b

/-- `Math.ceil((today - dueDate) / (1000*60*60*24))`, the days-overdue
formula shared by all fine computations in the source. -/
def overdueDays (today due : Int) : Int := ceilDiv (today - due) msPerDay

/-- `FineService.calculateFineForBook(dueDate, currentDate)`: zero when the
reference instant is at or before the due instant, otherwise the ceiling
day count times the daily rate. Returns (daysOverdue, totalFine). -/
def calculateFineForBook (dueDate currentDate : Int) : Int × Int :=
  if currentDate ≤ dueDate then (0, 0)
  else
    (overdueDays currentDate dueDate, overdueDays currentDate dueDate * DAILY_FINE_RATE)

/-- `MyBooksComponent.calculateFine(dueDate, returnDate?)`: the same rule,
using the actual return date when present and the current instant
otherwise. -/
def myBooksCalculateFine (dueDate : Int) (returnDate : Option Int) (now : Int) : Int :=
  let returned := returnDate.getD now
  if returned ≤ dueDate then 0
  else overdueDays returned dueDate * DAILY_FINE_RATE

/-- Fine status, `'pending' | 'paid'`. -/
inductive FineStatus where
  | pending
  | paid
deriving Repr, DecidableEq

/-- One row of the `fine_records` collection (`fine.model.ts`). Book
title/author copies are inert and omitted; dates are millisecond
timestamps. -/
structure FineRecord where
  id : String
  memberId : String
  bookId : String
  dueDate : Int
  daysOverdue : Int
  dailyFine : Int
  totalFine : Int
  status : FineStatus
  createdDate : Int
deriving Repr, DecidableEq

/-- The lookup predicate of `generateFineRecordsFromBorrowData`: a stored
fine matches a user borrow when it is pending and carries the same
bookId, memberId and due date. -/
def fineMatches (memberId bookId : String) (due : Int) (f : FineRecord) : Bool :=
  f.bookId == bookId && f.memberId == memberId && f.status == FineStatus.pending
    && f.dueDate == due

/-- The duplicate check of `generateFineRecordsFromBorrowData`: does a
pending fine for this (bookId, memberId, dueDate) triple already exist
among the stored fines? -/
def hasPendingFine (fines : List FineRecord) (memberId bookId : String) (due : Int) : Bool :=
  fines.any (fineMatches memberId bookId due)

/-- The refresh applied to a matched pending fine: daysOverdue and
totalFine recomputed for today. -/
def refreshFine (today due : Int) (f : FineRecord) : FineRecord :=
  { f with daysOverdue := overdueDays today due,
           totalFine := overdueDays today due * DAILY_FINE_RATE }

/-- The in-place refresh of `generateFineRecordsFromBorrowData`: the first
stored pending fine matching the triple gets its daysOverdue/totalFine
recomputed for today (writing the same values back when they are already
current, exactly as the guarded assignment in the source). -/
def updatePendingFine (memberId bookId : String) (due today : Int) :
    List FineRecord → List FineRecord
  | [] => []
  | f :: fs =>
    if fineMatches memberId bookId due f then
      refreshFine today due f :: fs
    else
      f :: updatePendingFine memberId bookId due today fs

/-- A freshly created FineRecord of `generateFineRecordsFromBorrowData`
(the `FINE-` + timestamp + random id is modelled by an id supplier). -/
def mkFine (newId : String) (memberId bookId : String) (due today : Int) : FineRecord :=
  { id := newId,
    memberId := memberId,
    bookId := bookId,
    dueDate := due,
    daysOverdue := overdueDays today due,
    dailyFine := DAILY_FINE_RATE,
    totalFine := overdueDays today due * DAILY_FINE_RATE,
    status := FineStatus.pending,
    createdDate := today }

/-- One iteration of the `userBorrows.forEach` body of
`generateFineRecordsFromBorrowData`, acting on the state (stored fines,
new fines collected so far, counter feeding the id supplier) for a
user borrow with the given bookId and due timestamp. The duplicate lookup
searches only the stored fines, as in the source. -/
def genFineStep (fresh : Nat → String) (memberId : String) (today : Int)
    (st : List FineRecord × List FineRecord × Nat) (p : String × Int) :
    List FineRecord × List FineRecord × Nat :=
  if p.2 < today then
    if hasPendingFine st.1 memberId p.1 p.2 then
      (updatePendingFine memberId p.1 p.2 today st.1, st.2)
    else if 0 < overdueDays today p.2 then
      (st.1, st.2.1 ++ [mkFine (fresh st.2.2) memberId p.1 p.2 today], st.2.2 + 1)
    else st
  else st

/-- The (bookId, due timestamp) of each of the member's unreturned borrow
records that carry a due date — the `userBorrows` filter of
`generateFineRecordsFromBorrowData`. -/
def userBorrowKeys (memberId : String) (borrows : List BorrowRecord) : List (String × Int) :=
  (borrows.filter (fun r => r.memberId == memberId && r.returnDate.isNone && r.dueDate.isSome)).filterMap
    (fun r => r.dueDate.map (fun due => (r.bookId, due)))

/-- `FineService.generateFineRecordsFromBorrowData(memberId)`: walk the
member's outstanding borrows; an overdue borrow whose triple already has a
stored pending fine gets that fine refreshed in place, otherwise a new
pending fine is created; the saved result is the (updated) stored fines
followed by the newly created ones. -/
def generateFineRecordsFromBorrowData (fresh : Nat → String) (memberId : String)
    (today : Int) (borrows : List BorrowRecord) (fines : List FineRecord) :
    List FineRecord :=
  let st := (userBorrowKeys memberId borrows).foldl (genFineStep fresh memberId today)
    (fines, [], 0)
  st.1 ++ st.2.1

/-- All the facts about a key (bookId, due timestamp) that make a later
generation pass a no-op on it: a pending fine for the triple is stored,
and refreshing the first stored match for today rewrites it unchanged. -/
def SettledKey (memberId : String) (today : Int) (fines : List FineRecord)
    (p : String × Int) : Prop :=
  hasPendingFine fines memberId p.1 p.2 = true
    ∧ updatePendingFine memberId p.1 p.2 today fines = fines

/-- A fine as `generateFineRecordsFromBorrowData` creates it: pending and
already carrying today's overdue figures. -/
def FreshFineOK (today : Int) (f : FineRecord) : Prop :=
  f.status = FineStatus.pending
    ∧ f.daysOverdue = overdueDays today f.dueDate
    ∧ f.totalFine = overdueDays today f.dueDate * DAILY_FINE_RATE

/-- Insertion step of the creation-date-descending sort used by
`getUserFines`. -/
def insertFineByDateDesc (f : FineRecord) : List FineRecord → List FineRecord
  | [] => [f]
  | g :: gs =>
    if g.createdDate ≤ f.createdDate then f :: g :: gs
    else g :: insertFineByDateDesc f gs

/-- The `sort((a, b) => b.createdDate - a.createdDate)` of `getUserFines`
(any creation-date-descending order is a faithful model of the
engine-dependent comparator sort). -/
def sortFinesByDateDesc : List FineRecord → List FineRecord
  | [] => []
  | f :: fs => insertFineByDateDesc f (sortFinesByDateDesc fs)

/-- The selection of `FineService.getUserFines(memberId)` applied to a
stored fines collection: the member's pending fines, newest first. (In the
service the stored collection has just been refreshed by
`generateFineRecordsFromBorrowData`.) -/
def getUserFines (memberId : String) (fines : List FineRecord) : List FineRecord :=
  sortFinesByDateDesc (fines.filter (fun f =>
    f.memberId == memberId && f.status == FineStatus.pending))

/-! ### Payment settlement (FineService.processPayment) -/

/-- A payment request (`fine.model.ts`), reduced to the fields the
settlement logic reads. -/
structure PaymentRequest where
  memberId : String
  fineIds : List String
  totalAmount : Int
  paymentMethod : String
  customerName : String
deriving Repr, DecidableEq

/-- One row of the `payment_records` collection; receipt URL and the
duplicated paymentId field are inert and omitted. -/
structure PaymentRecord where
  id : String
  transactionId : String
  memberId : String
  memberName : String
  amount : Int
  paymentMethod : String
  paymentDate : Int
  fineRecords : List FineRecord
  status : String
deriving Repr, DecidableEq

/-- The payment response returned to the caller. -/
structure PaymentResponse where
  success : Bool
  paymentId : Option String
  transactionId : Option String
  message : String
deriving Repr, DecidableEq

/-- The fixed list of simulated failure reasons of
`FineService.processPayment`. -/
def failureReasons : List String :=
  ["Insufficient funds in account",
   "Card expired or invalid",
   "Transaction declined by bank",
   "Network timeout occurred",
   "Invalid payment details"]

/-- `FineService.processPayment`: the simulated coin flip
(`Math.random() > 0.1`, success with probability 0.9) is the `isSuccess`
parameter, the generated ids and the random failure-reason index are
parameters likewise. On success: the fines whose ids appear in the request
are collected into one new PaymentRecord placed at the front of the
payment collection (`unshift`), and exactly those fines are flipped to
paid. On failure: a message built from one of the five fixed reasons, and
both collections are left untouched. Returns (response, fines, payments). -/
def processPayment (isSuccess : Bool) (paymentId transactionId : String)
    (reasonIdx : Nat) (now : Int) (req : PaymentRequest)
    (fines : List FineRecord) (payments : List PaymentRecord) :
    PaymentResponse × List FineRecord × List PaymentRecord :=
  if isSuccess then
    let paidFines := fines.filter (fun f => req.fineIds.contains f.id)
    let paymentRecord : PaymentRecord :=
      { id := paymentId,
        transactionId := transactionId,
        memberId := req.memberId,
        memberName := req.customerName,
        amount := req.totalAmount,
        paymentMethod := req.paymentMethod,
        paymentDate := now,
        fineRecords := paidFines,
        status := "completed" }
    let updatedFines := fines.map (fun f =>
      if req.fineIds.contains f.id then { f with status := FineStatus.paid } else f)
    ({ success := true,
       paymentId := some paymentId,
       transactionId := some transactionId,
       message := "Payment of ₹" ++ toString req.totalAmount ++ " processed successfully!" },
     updatedFines,
     paymentRecord :: payments)
  else
    ({ success := false,
       paymentId := none,
       transactionId := none,
       message := "Payment failed: " ++ failureReasons.getD (reasonIdx % 5) ""
         ++ ". Please try again." },
     fines,
     payments)

/-! ### Eligibility (UserService.getUserBorrowInfo /
BorrowBooksComponent.validateUserEligibility) -/

/-- `MAX_BOOKS_PER_USER` / `maxBooksAllowed` (5 in every call site). -/
def MAX_BOOKS_PER_USER : Int := 5

/-- The eligibility computation of `UserService.getUserBorrowInfo`:
`fines === 0 && overdueBooks === 0 && currentBorrowedCount < maxBooksAllowed`. -/
def isEligibleCalc (fines overdueBooks currentBorrowedCount : Int) : Bool :=
  fines == 0 && overdueBooks == 0 && currentBorrowedCount < MAX_BOOKS_PER_USER

/-- The outcome surfaced by
`BorrowBooksComponent.validateUserEligibility`, in source order. -/
inductive EligOutcome where
  | finesBlock
  | overdueBlock
  | limitBlock
  | allowed
deriving Repr, DecidableEq

/-- `BorrowBooksComponent.validateUserEligibility`: the first failing
check wins — pending fines, then overdue books, then the borrow limit. -/
def validateUserEligibility (fines overdueBooks currentBorrowedCount : Int) : EligOutcome :=
  if 0 < fines then .finesBlock
  else if 0 < overdueBooks then .overdueBlock
  else if MAX_BOOKS_PER_USER ≤ currentBorrowedCount then .limitBlock
  else .allowed

/-- The selection-time guard `validateSelection`: a pending selection of
`totalSelected` more copies passes iff it would not push the member past
`MAX_BOOKS_PER_USER`. -/
def selectionAllowed (currentBorrowedCount totalSelected : Int) : Bool :=
  !(MAX_BOOKS_PER_USER < currentBorrowedCount + totalSelected)

/-! ### Member registration (MemberService.registerMember) -/

/-- JavaScript `toLowerCase()` on the ASCII strings handled here, modelled
character by character. -/
def lowercase (s : String) : String := ⟨s.data.map Char.toLower⟩

/-- The last `n` characters of a string, JavaScript `slice(-n)`. -/
def takeLastChars (s : String) (n : Nat) : String := ⟨s.data.drop (s.data.length - n)⟩

/-- `'LIB' + Date.now().toString().slice(-6)`: the generated member id. -/
def genMemberId (now : Int) : String := "LIB" ++ takeLastChars (toString now) 6

/-- One row of the `registered_users` collection, reduced to the fields
the registration duplicate check and response read. -/
structure RegisteredUser where
  id : String
  memberName : String
  email : String
  password : String
deriving Repr, DecidableEq

/-- A registration request, reduced likewise. -/
structure MemberRegistrationRequest where
  memberName : String
  email : String
  password : String
deriving Repr, DecidableEq

/-- The successful registration response. -/
structure MemberRegistrationResponse where
  success : Bool
  message : String
  memberId : String
  memberName : String
  email : String
deriving Repr, DecidableEq

/-- The outcome of `registerMember`: a thrown error message, or a
response. -/
inductive RegResult where
  | failure (message : String)
  | success (resp : MemberRegistrationResponse)
deriving Repr, DecidableEq

/-- `MemberService.registerMember`: reject when any registered user's
email equals the request's email case-insensitively (no member is
persisted then); otherwise persist a new member — id generated from the
timestamp, email stored lowercased — and return a success response echoing
the id and profile fields. -/
def registerMember (users : List RegisteredUser) (req : MemberRegistrationRequest)
    (now : Int) : RegResult × List RegisteredUser :=
  if users.any (fun u => lowercase u.email == lowercase req.email) then
    (.failure "Email already registered.", users)
  else
    let memberId := genMemberId now
    (.success
      { success := true,
        message := "Registration successful!",
        memberId := memberId,
        memberName := req.memberName,
        email := req.email },
     users ++ [{ id := memberId,
                 memberName := req.memberName,
                 email := lowercase req.email,
                 password := req.password }])

/-- A sample registered user for the concrete registration runs. -/
def sampleUser : RegisteredUser :=
  { id := "LIB000001", memberName := "A", email := "a@x.com", password := "p" }

/-- A sample pending fine of ₹25 (member M2) for the concrete payment
runs. -/
def sampleFine : FineRecord :=
  { id := "F1", memberId := "M2", bookId := "BK001", dueDate := 0,
    daysOverdue := 5, dailyFine := 5, totalFine := 25,
    status := FineStatus.pending, createdDate := 100 }

/-- A payment request selecting that fine, issued by member M1 (not the
fine's member). -/
def sampleRequestM1 : PaymentRequest :=
  { memberId := "M1", fineIds := ["F1"], totalAmount := 25,
    paymentMethod := "card", customerName := "N" }

/-- The same selection issued by the fine's own member M2. -/
def sampleRequestM2 : PaymentRequest :=
  { memberId := "M2", fineIds := ["F1"], totalAmount := 25,
    paymentMethod := "card", customerName := "N" }

/-- A sample unreturned borrow record, due at epoch, for the concrete
fine-generation runs. -/
def sampleBorrow : BorrowRecord :=
  { id := "BR1", memberId := "M2", bookId := "BK001", borrowDate := 0,
    dueDate := some 0, returnDate := none }

/-- The already-paid fine for `sampleBorrow`'s triple. -/
def samplePaidFine : FineRecord := { sampleFine with id := "F0", status := FineStatus.paid }


/-! ### Invariant-preservation lemmas for the inventory operations -/

/-- A single availability update is safe for a catalog when the value it
writes is within the bounds of the (first) book it targets. -/
def UpdateOK (books : List Book) (u : String × Int) : Prop :=
  ∀ b, findBook books u.1 = some b → 0 ≤ u.2 ∧ u.2 ≤ b.totalCopies

theorem findBook_cons (b : Book) (bs : List Book) (tid : String) :
    findBook (b :: bs) tid = if b.id == tid then some b else findBook bs tid := by
  by_cases h : b.id == tid <;> simp [findBook, List.find?_cons, h]

theorem mem_of_findBook (books : List Book) (tid : String) (b : Book)
    (h : findBook books tid = some b) : b ∈ books :=
  List.mem_of_find?_eq_some h

theorem setBookAvailability_inv (books : List Book) (bookId : String) (v : Int)
    (hinv : CatalogInv books) (hok : UpdateOK books (bookId, v)) :
    CatalogInv (setBookAvailability books bookId v) := by
  induction books with
  | nil => intro b hb; simp [setBookAvailability] at hb
  | cons b bs ih =>
    intro b' hb'
    by_cases h : b.id == bookId
    · simp only [setBookAvailability, if_pos h, List.mem_cons] at hb'
      rcases hb' with hb' | hb'
      · subst hb'
        have hfind : findBook (b :: bs) bookId = some b := by
          rw [findBook_cons, if_pos h]
        rcases hok b hfind with ⟨h0, h1⟩
        exact ⟨h0, h1⟩
      · exact hinv b' (List.mem_cons_of_mem _ hb')
    · simp only [setBookAvailability, if_neg h, List.mem_cons] at hb'
      rcases hb' with hb' | hb'
      · subst hb'; exact hinv b' (List.mem_cons_self _ _)
      · have hinv' : CatalogInv bs := fun x hx => hinv x (List.mem_cons_of_mem _ hx)
        have hok' : UpdateOK bs (bookId, v) := by
          intro x hx
          apply hok
          rw [findBook_cons, if_neg h]
          exact hx
        exact ih hinv' hok' b' hb'

theorem findBook_setBookAvailability_total (books : List Book) (bookId : String)
    (v : Int) (tid : String) :
    (findBook (setBookAvailability books bookId v) tid).map Book.totalCopies =
      (findBook books tid).map Book.totalCopies := by
  induction books with
  | nil => simp [setBookAvailability]
  | cons b bs ih =>
    by_cases h : b.id == bookId
    · by_cases h2 : b.id == tid <;>
        simp [setBookAvailability, h, findBook_cons, h2]
    · by_cases h2 : b.id == tid <;>
        simp [setBookAvailability, h, findBook_cons, h2, ih]

theorem UpdateOK_setBookAvailability (books : List Book) (bookId : String) (v : Int)
    (u : String × Int) (hok : UpdateOK books u) :
    UpdateOK (setBookAvailability books bookId v) u := by
  intro b' hb'
  have htot := findBook_setBookAvailability_total books bookId v u.1
  rw [hb'] at htot
  cases hfind : findBook books u.1 with
  | none => rw [hfind] at htot; simp at htot
  | some b =>
    rw [hfind] at htot
    simp only [Option.map_some', Option.some.injEq] at htot
    obtain ⟨h0, h1⟩ := hok b hfind
    rw [htot]
    exact ⟨h0, h1⟩

theorem updateMultipleBooksAvailability_inv (ups : List (String × Int)) (books : List Book)
    (hinv : CatalogInv books) (hok : ∀ u ∈ ups, UpdateOK books u) :
    CatalogInv (updateMultipleBooksAvailability books ups) := by
  induction ups generalizing books with
  | nil => exact hinv
  | cons u rest ih =>
    have h1 : CatalogInv (setBookAvailability books u.1 u.2) :=
      setBookAvailability_inv books u.1 u.2 hinv (hok u (List.mem_cons_self _ _))
    have h2 : ∀ u' ∈ rest, UpdateOK (setBookAvailability books u.1 u.2) u' := by
      intro u' hu'
      exact UpdateOK_setBookAvailability books u.1 u.2 u'
        (hok u' (List.mem_cons_of_mem _ hu'))
    exact ih (setBookAvailability books u.1 u.2) h1 h2

theorem effQuantities_nonneg (ids : List String) (qs : List Int)
    (h : ∀ q ∈ qs, 0 ≤ q) : ∀ p ∈ effQuantities ids qs, 0 ≤ p.2 := by
  induction ids generalizing qs with
  | nil => intro p hp; simp [effQuantities] at hp
  | cons i is ih =>
    cases qs with
    | nil =>
      intro p hp
      simp only [effQuantities, List.mem_cons] at hp
      rcases hp with hp | hp
      · subst hp; norm_num
      · exact ih [] (by intro q hq; simp at hq) p hp
    | cons q qrest =>
      intro p hp
      simp only [effQuantities, List.mem_cons] at hp
      rcases hp with hp | hp
      · subst hp
        by_cases hq0 : q = 0
        · simp only [if_pos hq0]; norm_num
        · simp only [if_neg hq0]; exact h q (List.mem_cons_self _ _)
      · exact ih qrest (fun x hx => h x (List.mem_cons_of_mem _ hx)) p hp

theorem borrowUpdates_ok (books : List Book) (hinv : CatalogInv books)
    (pairs : List (String × Int)) (hq : ∀ p ∈ pairs, 0 ≤ p.2)
    (ups : List (String × Int)) (h : borrowUpdates books pairs = some ups) :
    ∀ u ∈ ups, UpdateOK books u := by
  induction pairs generalizing ups with
  | nil =>
    simp only [borrowUpdates, Option.some.injEq] at h
    subst h; intro u hu; simp at hu
  | cons p rest ih =>
    obtain ⟨pid, pq⟩ := p
    simp only [borrowUpdates] at h
    cases hfind : findBook books pid with
    | none => simp only [hfind] at h; exact absurd h (by simp)
    | some b =>
      simp only [hfind] at h
      by_cases hle : pq ≤ b.availableCopies
      · rw [if_pos hle] at h
        cases hrest : borrowUpdates books rest with
        | none => simp [hrest] at h
        | some ups' =>
          rw [hrest] at h
          simp only [Option.map_some', Option.some.injEq] at h
          subst h
          intro u hu
          rcases List.mem_cons.mp hu with hu | hu
          · subst hu
            intro b' hb'
            rw [hfind] at hb'
            have hb'' : b = b' := by injection hb'
            subst hb''
            have hbmem : b ∈ books := mem_of_findBook books pid b hfind
            rcases hinv b hbmem with ⟨_, h2⟩
            have hq0 : (0:Int) ≤ pq := hq (pid, pq) (List.mem_cons_self _ _)
            exact ⟨by omega, by omega⟩
          · exact ih (fun x hx => hq x (List.mem_cons_of_mem _ hx)) ups' hrest u hu
      · rw [if_neg hle] at h; simp at h

theorem returnUpdates_ok (books : List Book) (hinv : CatalogInv books)
    (pairs : List (String × Int)) (hq : ∀ p ∈ pairs, 0 ≤ p.2) :
    ∀ u ∈ returnUpdates books pairs, UpdateOK books u := by
  intro u hu
  simp only [returnUpdates, List.mem_filterMap] at hu
  obtain ⟨p, hp, hmap⟩ := hu
  cases hfind : findBook books p.1 with
  | none => rw [hfind] at hmap; simp at hmap
  | some b =>
    rw [hfind] at hmap
    simp only [Option.map_some', Option.some.injEq] at hmap
    subst hmap
    intro b' hb'
    rw [hfind] at hb'
    have hbb : b = b' := by injection hb'
    subst hbb
    have hbmem : b ∈ books := mem_of_findBook books p.1 b hfind
    rcases hinv b hbmem with ⟨h1, h2⟩
    have hq0 : (0:Int) ≤ p.2 := hq p hp
    refine ⟨?_, min_le_left _ _⟩
    rw [le_min_iff]
    exact ⟨by omega, by omega⟩

theorem applyInvOp_inv (books : List Book) (op : InvOp)
    (hinv : CatalogInv books) (hop : InvOpNonneg op) :
    CatalogInv (applyInvOp books op) := by
  cases op with
  | borrow ids qs =>
    simp only [applyInvOp, borrowBooks]
    cases h : borrowUpdates books (effQuantities ids qs) with
    | none => exact hinv
    | some ups =>
      exact updateMultipleBooksAvailability_inv ups books hinv
        (borrowUpdates_ok books hinv _ (effQuantities_nonneg ids qs hop) ups h)
  | ret ids qs =>
    simp only [applyInvOp, returnBooks]
    exact updateMultipleBooksAvailability_inv _ books hinv
      (returnUpdates_ok books hinv _ (effQuantities_nonneg ids qs hop))

theorem runInvOps_cons (books : List Book) (op : InvOp) (rest : List InvOp) :
    runInvOps books (op :: rest) = runInvOps (applyInvOp books op) rest := rfl

/-! ### C1 — catalog bounds under borrow/return sequences -/

/-- C1, counterexample: the claim fails as stated — `returnBooks` applies
`min(total, available + quantity)` without validating the quantity's sign
(`quantities[i] || 1` keeps negative numbers), so a single return call
with quantity −1 on a fully borrowed book drives `availableCopies` to −1,
below the claimed lower bound of 0. -/
theorem C1_counterexample :
    runInvOps [⟨"BK001", 0, 10, false⟩] [InvOp.ret ["BK001"] [-1]]
        = [⟨"BK001", -1, 10, false⟩]
      ∧ ¬ CatalogInv (runInvOps [⟨"BK001", 0, 10, false⟩] [InvOp.ret ["BK001"] [-1]]) := by
  constructor
  · decide
  · decide

/-- C1, amended: starting from a catalog satisfying
`0 ≤ availableCopies ≤ totalCopies`, every sequence of
`BookService.borrowBooks` / `BookService.returnBooks` calls whose raw
quantities are all nonnegative (which every UI call site guarantees)
preserves the invariant for every book. -/
theorem C1_theorem (books : List Book) (ops : List InvOp)
    (hinv : CatalogInv books) (hops : ∀ op ∈ ops, InvOpNonneg op) :
    CatalogInv (runInvOps books ops) := by
  induction ops generalizing books with
  | nil => exact hinv
  | cons op rest ih =>
    rw [runInvOps_cons]
    exact ih (applyInvOp books op)
      (applyInvOp_inv books op hinv (hops op (List.mem_cons_self _ _)))
      (fun o ho => hops o (List.mem_cons_of_mem _ ho))

/-- C1, witness: a concrete borrow-then-return run through `C1_theorem`. -/
theorem C1_witness :
    CatalogInv [⟨"BK001", 1, 10, true⟩]
      ∧ (∀ op ∈ ([InvOp.borrow ["BK001"] [1], InvOp.ret ["BK001"] [2]] : List InvOp),
          InvOpNonneg op)
      ∧ CatalogInv (runInvOps [⟨"BK001", 1, 10, true⟩]
          [InvOp.borrow ["BK001"] [1], InvOp.ret ["BK001"] [2]]) :=
  ⟨by decide, by decide, C1_theorem _ _ (by decide) (by decide)⟩

/-! ### C3 — insufficient copies fail the whole borrow and change nothing -/

theorem borrowUpdates_none (books : List Book) (pairs : List (String × Int))
    (p : String × Int) (hp : p ∈ pairs) (hins : InsufficientAt books p) :
    borrowUpdates books pairs = none := by
  induction pairs with
  | nil => cases hp
  | cons q rest ih =>
    obtain ⟨qid, qq⟩ := q
    rcases List.mem_cons.mp hp with hq | hp'
    · subst hq
      simp only [borrowUpdates]
      cases hfind : findBook books qid with
      | none => simp only [hfind]
      | some b =>
        simp only [InsufficientAt, hfind] at hins
        simp only [hfind]
        rw [if_neg (by omega)]
    · simp only [borrowUpdates]
      cases hfind : findBook books qid with
      | none => simp only [hfind]
      | some b =>
        simp only [hfind]
        by_cases hle : qq ≤ b.availableCopies
        · rw [if_pos hle, ih hp']; rfl
        · rw [if_neg hle]

/-- C3: if any requested book of a `BookService.borrowBooks` call is
missing or has fewer available copies than the (effective) requested
quantity, the call returns false and leaves every book untouched; in
particular, on `BK001` with available=1, total=10, two sequential one-copy
borrow calls see the first succeed (available becomes 0, and the
availability flag drops) and the second fail with no change. -/
theorem C3_theorem :
    (∀ (books : List Book) (ids : List String) (qs : List Int),
        (∃ p ∈ effQuantities ids qs, InsufficientAt books p) →
        borrowBooks books ids qs = (false, books))
      ∧ borrowBooks [⟨"BK001", 1, 10, true⟩] ["BK001"] [1]
          = (true, [⟨"BK001", 0, 10, false⟩])
      ∧ borrowBooks [⟨"BK001", 0, 10, false⟩] ["BK001"] [1]
          = (false, [⟨"BK001", 0, 10, false⟩]) := by
  refine ⟨?_, by decide, by decide⟩
  rintro books ids qs ⟨p, hp, hins⟩
  unfold borrowBooks
  rw [borrowUpdates_none books _ p hp hins]

/-- C3, witness: requesting 2 copies when only 1 is available fails via
`C3_theorem` with the catalog unchanged. -/
theorem C3_witness :
    (∃ p ∈ effQuantities ["BK001"] [2], InsufficientAt [⟨"BK001", 1, 10, true⟩] p)
      ∧ borrowBooks [⟨"BK001", 1, 10, true⟩] ["BK001"] [2]
          = (false, [⟨"BK001", 1, 10, true⟩]) :=
  ⟨by decide, C3_theorem.1 _ _ _ (by decide)⟩

/-! ### C2 — borrowing q copies: inventory delta and ledger rows -/

theorem findBook_decrementFirstBook (books : List Book) (bid : String) (q : Int) :
    findBook (decrementFirstBook books bid q) bid
      = (findBook books bid).map (fun b =>
          { b with availableCopies := b.availableCopies - q,
                   isAvailable := if b.availableCopies - q = 0 then false else b.isAvailable }) := by
  induction books with
  | nil => simp [decrementFirstBook, findBook]
  | cons b bs ih =>
    by_cases h : b.id == bid
    · simp [decrementFirstBook, h, findBook_cons]
    · simp [decrementFirstBook, h, findBook_cons, ih]

theorem mem_decrementFirstBook_of_ne (books : List Book) (bid : String) (q : Int)
    (b' : Book) (hb' : b' ∈ books) (hne : b'.id ≠ bid) :
    b' ∈ decrementFirstBook books bid q := by
  induction books with
  | nil => cases hb'
  | cons b bs ih =>
    rcases List.mem_cons.mp hb' with hb | hb
    · subst hb
      have h : (b'.id == bid) = false := by
        simp only [beq_eq_false_iff_ne, ne_eq]; exact hne
      simp [decrementFirstBook, h]
    · by_cases h : b.id == bid
      · simp only [decrementFirstBook, if_pos h]
        exact List.mem_cons_of_mem _ hb
      · simp only [decrementFirstBook, if_neg h]
        exact List.mem_cons_of_mem _ (ih hb)

/-- C2: with a single selected book `bid` of quantity `q ≥ 1` whose
catalog entry has `availableCopies ≥ q`, `BooksComponent.confirmBorrow`
decreases that book's availableCopies by exactly `q`, leaves every other
book in place, and appends (never overwrites) exactly `q` singleton
borrow records, each carrying the borrowing member, the book, and a due
timestamp exactly 14 days after its borrow timestamp, with no return
timestamp. -/
theorem C2_theorem (books : List Book) (existing : List BorrowRecord)
    (bid memberId : String) (q : Int) (now : Int) (b : Book)
    (hfind : findBook books bid = some b) (hq : 0 < q)
    (hav : q ≤ b.availableCopies) :
    (findBook (confirmBorrow books existing [(bid, q)] memberId now).1 bid).map
        Book.availableCopies = some (b.availableCopies - q)
      ∧ (∀ b' ∈ books, b'.id ≠ bid →
          b' ∈ (confirmBorrow books existing [(bid, q)] memberId now).1)
      ∧ (confirmBorrow books existing [(bid, q)] memberId now).2
          = existing ++ saveBorrowRecord [] memberId now [(bid, q)]
      ∧ (saveBorrowRecord [] memberId now [(bid, q)]).length = q.toNat
      ∧ ∀ r ∈ saveBorrowRecord [] memberId now [(bid, q)],
          r.memberId = memberId ∧ r.bookId = bid ∧ r.borrowDate = now
            ∧ r.dueDate = some (r.borrowDate + 14 * msPerDay) ∧ r.returnDate = none := by
  refine ⟨?_, ?_, ?_, ?_, ?_⟩
  · show (findBook (decrementFirstBook books bid q) bid).map Book.availableCopies = _
    rw [findBook_decrementFirstBook, hfind]
    rfl
  · intro b' hb' hne
    exact mem_decrementFirstBook_of_ne books bid q b' hb' hne
  · simp [confirmBorrow, saveBorrowRecord]
  · simp [saveBorrowRecord, expandBorrowItems]
  · intro r hr
    simp only [saveBorrowRecord, List.nil_append, List.mem_map] at hr
    obtain ⟨pr, hpr, hr⟩ := hr
    have hsnd : pr.2 ∈ expandBorrowItems [(bid, q)] := by
      have h2 := List.mem_map_of_mem Prod.snd hpr
      rwa [List.enum_map_snd] at h2
    have hbid : pr.2 = bid := by
      simp only [expandBorrowItems, List.flatMap_cons, List.flatMap_nil,
        List.append_nil] at hsnd
      exact List.eq_of_mem_replicate hsnd
    subst hr
    refine ⟨rfl, hbid, rfl, ?_, rfl⟩
    show some (now + borrowPeriodMs) = some (now + 14 * msPerDay)
    rfl

/-- C2, witness: borrowing 2 of 3 available copies through `C2_theorem`. -/
theorem C2_witness :
    findBook [⟨"BK001", 3, 10, true⟩] "BK001" = some ⟨"BK001", 3, 10, true⟩
      ∧ (0:Int) < 2 ∧ (2:Int) ≤ 3
      ∧ (findBook (confirmBorrow [⟨"BK001", 3, 10, true⟩] [] [("BK001", 2)] "M1" 0).1
            "BK001").map Book.availableCopies = some 1
      ∧ (saveBorrowRecord [] "M1" 0 [("BK001", 2)]).length = 2 :=
  ⟨by decide, by decide, by decide,
   ( C2_theorem [⟨"BK001", 3, 10, true⟩] [] "BK001" "M1" 2 0 ⟨"BK001", 3, 10, true⟩
      (by decide) (by decide) (by decide)).1,
   ( C2_theorem [⟨"BK001", 3, 10, true⟩] [] "BK001" "M1" 2 0 ⟨"BK001", 3, 10, true⟩
      (by decide) (by decide) (by decide)).2.2.2.1⟩

/-! ### C4 — the fine formula -/

theorem msPerDay_pos : (0:Int) < msPerDay := by decide

theorem overdueDays_pos (today due : Int) (h : due < today) : 0 < overdueDays today due := by
  unfold overdueDays ceilDiv
  have h1 : (1:Int) * msPerDay ≤ today - due + msPerDay - 1 := by
    rw [one_mul]; omega
  have h2 : (1:Int) ≤ (today - due + msPerDay - 1) / msPerDay :=
    (Int.le_ediv_iff_mul_le msPerDay_pos).mpr h1
  omega

theorem overdueDays_mono (due r1 r2 : Int) (h : r1 ≤ r2) :
    overdueDays r1 due ≤ overdueDays r2 due := by
  unfold overdueDays ceilDiv
  exact Int.ediv_le_ediv msPerDay_pos (by omega)

/-- C4: the fine computation returns `(0, 0)` whenever the reference
instant is at or before the due instant; otherwise days overdue is the
ceiling of the day quotient (strictly positive) and the fine is days × 5;
the fine is monotone in the reference date; due 2025-01-01T00:00:00Z,
returned 2025-01-06T00:00:00Z gives (5, 25); and
`MyBooksComponent.calculateFine` computes exactly the fine component of
`FineService.calculateFineForBook` at the return date (or at the current
instant when the record is still out). -/
theorem C4_theorem :
    (∀ due r : Int, r ≤ due → calculateFineForBook due r = (0, 0))
      ∧ (∀ due r : Int, due < r →
          calculateFineForBook due r
              = (ceilDiv (r - due) msPerDay, ceilDiv (r - due) msPerDay * DAILY_FINE_RATE)
            ∧ 0 < ceilDiv (r - due) msPerDay)
      ∧ (∀ due r1 r2 : Int, r1 ≤ r2 →
          (calculateFineForBook due r1).2 ≤ (calculateFineForBook due r2).2)
      ∧ calculateFineForBook 1735689600000 1736121600000 = (5, 25)
      ∧ (∀ (due now : Int) (returnDate : Option Int),
          myBooksCalculateFine due returnDate now
            = (calculateFineForBook due (returnDate.getD now)).2) := by
  have hrate : (0:Int) ≤ DAILY_FINE_RATE := by decide
  refine ⟨?_, ?_, ?_, by decide, ?_⟩
  · intro due r h
    simp [calculateFineForBook, h]
  · intro due r h
    rw [calculateFineForBook, if_neg (by omega)]
    exact ⟨rfl, overdueDays_pos r due h⟩
  · intro due r1 r2 h
    unfold calculateFineForBook
    by_cases h1 : r1 ≤ due
    · rw [if_pos h1]
      by_cases h2 : r2 ≤ due
      · rw [if_pos h2]
      · rw [if_neg h2]
        exact mul_nonneg (le_of_lt (overdueDays_pos r2 due (by omega))) hrate
    · rw [if_neg h1, if_neg (show ¬ r2 ≤ due by omega)]
      exact mul_le_mul_of_nonneg_right (overdueDays_mono due r1 r2 h) hrate
  · intro due now returnDate
    cases returnDate with
    | none =>
      simp only [myBooksCalculateFine, Option.getD_none, calculateFineForBook]
      by_cases h : now ≤ due
      · rw [if_pos h, if_pos h]
      · rw [if_neg h, if_neg h]
    | some r =>
      simp only [myBooksCalculateFine, Option.getD_some, calculateFineForBook]
      by_cases h : r ≤ due
      · rw [if_pos h, if_pos h]
      · rw [if_neg h, if_neg h]

/-- C4, witness: `C4_theorem` applied at a reference instant equal to the
due instant. -/
theorem C4_witness : (0:Int) ≤ 0 ∧ calculateFineForBook 0 0 = (0, 0) :=
  ⟨le_refl 0, C4_theorem.1 0 0 (le_refl 0)⟩

/-! ### C6 — eligibility policy -/

/-- C6: a member is eligible iff pending fines are 0, overdue count is 0
and the borrowed count is strictly below 5; any positive fine blocks
regardless of count; exactly 5 borrowed blocks; 4 borrowed is eligible and
the selection-time guard admits exactly 1 more copy (1 passes, 2 does
not); and `BorrowBooksComponent.validateUserEligibility` surfaces the
failing reasons with fines first, then overdue, then the limit. -/
theorem C6_theorem :
    (∀ f o c : Int, isEligibleCalc f o c = true ↔ (f = 0 ∧ o = 0 ∧ c < 5))
      ∧ (∀ f o c : Int, 0 < f → isEligibleCalc f o c = false)
      ∧ isEligibleCalc 0 0 5 = false
      ∧ isEligibleCalc 0 0 4 = true
      ∧ selectionAllowed 4 1 = true ∧ selectionAllowed 4 2 = false
      ∧ (∀ f o c : Int, 0 < f → validateUserEligibility f o c = .finesBlock)
      ∧ (∀ f o c : Int, f ≤ 0 → 0 < o → validateUserEligibility f o c = .overdueBlock)
      ∧ (∀ f o c : Int, f ≤ 0 → o ≤ 0 → 5 ≤ c → validateUserEligibility f o c = .limitBlock)
      ∧ (∀ f o c : Int, f ≤ 0 → o ≤ 0 → c < 5 → validateUserEligibility f o c = .allowed) := by
  refine ⟨?_, ?_, by decide, by decide, by decide, by decide, ?_, ?_, ?_, ?_⟩
  · intro f o c
    simp [isEligibleCalc, MAX_BOOKS_PER_USER, and_assoc]
  · intro f o c h
    simp only [isEligibleCalc, MAX_BOOKS_PER_USER]
    simp only [Bool.and_eq_false_iff]
    left; left
    simpa using (by omega : f ≠ 0)
  · intro f o c h
    rw [validateUserEligibility, if_pos h]
  · intro f o c h1 h2
    rw [validateUserEligibility, if_neg (by omega), if_pos h2]
  · intro f o c h1 h2 h3
    rw [validateUserEligibility, if_neg (by omega), if_neg (by omega),
      if_pos (by simpa [MAX_BOOKS_PER_USER] using h3)]
  · intro f o c h1 h2 h3
    rw [validateUserEligibility, if_neg (by omega), if_neg (by omega),
      if_neg (by simp [MAX_BOOKS_PER_USER]; omega)]

/-- C6, witness: a pending fine of 1 blocks eligibility via `C6_theorem`. -/
theorem C6_witness : (0:Int) < 1 ∧ isEligibleCalc 1 0 0 = false :=
  ⟨by decide, C6_theorem.2.1 1 0 0 (by decide)⟩

/-! ### C9 — registration and the case-insensitive duplicate-email check -/

/-- C9: `MemberService.registerMember` fails with the duplicate-email
error — persisting nothing — exactly when some registered user's email
matches the request's ignoring letter case (so a second registration
differing only in case is rejected, as the concrete run shows); otherwise
it persists one new member carrying the generated id and returns a success
response echoing that id and the profile fields. -/
theorem C9_theorem :
    (∀ (users : List RegisteredUser) (req : MemberRegistrationRequest) (now : Int),
        (∃ u ∈ users, lowercase u.email = lowercase req.email) →
        registerMember users req now = (.failure "Email already registered.", users))
      ∧ (∀ (users : List RegisteredUser) (req : MemberRegistrationRequest) (now : Int),
          (∀ u ∈ users, lowercase u.email ≠ lowercase req.email) →
          registerMember users req now
            = (.success
                { success := true, message := "Registration successful!",
                  memberId := genMemberId now, memberName := req.memberName,
                  email := req.email },
               users ++ [{ id := genMemberId now, memberName := req.memberName,
                           email := lowercase req.email, password := req.password }]))
      ∧ (registerMember [sampleUser]
          { memberName := "B", email := "A@X.com", password := "q" } 0).1
          = .failure "Email already registered." := by
  refine ⟨?_, ?_, by decide⟩
  · rintro users req now ⟨u, hu, hmail⟩
    rw [registerMember, if_pos]
    exact List.any_eq_true.mpr ⟨u, hu, beq_iff_eq.mpr hmail⟩
  · intro users req now h
    rw [registerMember, if_neg]
    intro hall
    obtain ⟨u, hu, hbeq⟩ := List.any_eq_true.mp hall
    exact h u hu (beq_iff_eq.mp hbeq)

/-- C9, witness: a duplicate email differing only in case is rejected and
nothing is persisted, via `C9_theorem`. -/
theorem C9_witness :
    (∃ u ∈ [sampleUser], lowercase u.email = lowercase "A@x.COM")
      ∧ registerMember [sampleUser]
          { memberName := "C", email := "A@x.COM", password := "r" } 5
          = (.failure "Email already registered.", [sampleUser]) :=
  ⟨by decide,
   C9_theorem.1 [sampleUser]
     { memberName := "C", email := "A@x.COM", password := "r" } 5 (by decide)⟩

/-! ### C7 / C10 — payment settlement -/

theorem contains_iff_mem_str (l : List String) (a : String) :
    l.contains a = true ↔ a ∈ l := by
  unfold List.contains
  exact List.elem_iff

theorem mem_insertFineByDateDesc (f g : FineRecord) (l : List FineRecord) :
    g ∈ insertFineByDateDesc f l ↔ g = f ∨ g ∈ l := by
  induction l with
  | nil => simp [insertFineByDateDesc]
  | cons h t ih =>
    by_cases hc : h.createdDate ≤ f.createdDate
    · simp [insertFineByDateDesc, hc]
    · simp only [insertFineByDateDesc, if_neg hc, List.mem_cons, ih]
      tauto

theorem mem_sortFinesByDateDesc (g : FineRecord) (l : List FineRecord) :
    g ∈ sortFinesByDateDesc l ↔ g ∈ l := by
  induction l with
  | nil => simp [sortFinesByDateDesc]
  | cons f t ih =>
    simp [sortFinesByDateDesc, mem_insertFineByDateDesc, ih]

theorem mem_getUserFines (memberId : String) (fines : List FineRecord) (g : FineRecord) :
    g ∈ getUserFines memberId fines ↔
      g ∈ fines ∧ g.memberId = memberId ∧ g.status = FineStatus.pending := by
  unfold getUserFines
  rw [mem_sortFinesByDateDesc, List.mem_filter]
  simp [and_assoc]

/-- C7: on a (simulated) success, `FineService.processPayment` adds
exactly one PaymentRecord — carrying the request's total amount and
referencing precisely the stored fines whose ids were selected — to the
front of the payment collection, flips exactly the selected fines to
paid, and reports success; every fine a subsequent `getUserFines` returns
is pending, so no fine with a paid id appears there. On a simulated
failure the response carries one of the five fixed reasons and both the
fine and the payment collections are returned untouched. -/
theorem C7_theorem :
    (∀ (pid txn : String) (ridx : Nat) (now : Int) (req : PaymentRequest)
        (fines : List FineRecord) (payments : List PaymentRecord),
        (processPayment true pid txn ridx now req fines payments).2.2
            = { id := pid, transactionId := txn, memberId := req.memberId,
                memberName := req.customerName, amount := req.totalAmount,
                paymentMethod := req.paymentMethod, paymentDate := now,
                fineRecords := fines.filter (fun f => req.fineIds.contains f.id),
                status := "completed" } :: payments
          ∧ (processPayment true pid txn ridx now req fines payments).2.1
              = fines.map (fun f =>
                  if req.fineIds.contains f.id then { f with status := FineStatus.paid } else f)
          ∧ (processPayment true pid txn ridx now req fines payments).1.success = true)
      ∧ (∀ (pid txn : String) (ridx : Nat) (now : Int) (req : PaymentRequest)
          (fines : List FineRecord) (payments : List PaymentRecord)
          (m fid : String), fid ∈ req.fineIds →
          ∀ g ∈ getUserFines m (processPayment true pid txn ridx now req fines payments).2.1,
            g.id ≠ fid)
      ∧ (∀ (pid txn : String) (ridx : Nat) (now : Int) (req : PaymentRequest)
          (fines : List FineRecord) (payments : List PaymentRecord),
          (processPayment false pid txn ridx now req fines payments).1.success = false
            ∧ (processPayment false pid txn ridx now req fines payments).2.1 = fines
            ∧ (processPayment false pid txn ridx now req fines payments).2.2 = payments
            ∧ ∃ reason ∈ failureReasons,
                (processPayment false pid txn ridx now req fines payments).1.message
                  = "Payment failed: " ++ reason ++ ". Please try again.") := by
  refine ⟨?_, ?_, ?_⟩
  · intro pid txn ridx now req fines payments
    exact ⟨rfl, rfl, rfl⟩
  · intro pid txn ridx now req fines payments m fid hfid g hg gid
    rw [mem_getUserFines] at hg
    obtain ⟨hgmem, _, hgpend⟩ := hg
    have : (processPayment true pid txn ridx now req fines payments).2.1
        = fines.map (fun f =>
            if req.fineIds.contains f.id then { f with status := FineStatus.paid } else f) := rfl
    rw [this, List.mem_map] at hgmem
    obtain ⟨f, hf, hmap⟩ := hgmem
    by_cases hc : req.fineIds.contains f.id
    · rw [if_pos hc] at hmap
      rw [← hmap] at hgpend
      exact absurd hgpend (by simp)
    · rw [if_neg hc] at hmap
      subst hmap
      rw [gid] at hc
      exact hc ((contains_iff_mem_str _ _).mpr hfid)
  · intro pid txn ridx now req fines payments
    refine ⟨rfl, rfl, rfl, failureReasons.getD (ridx % 5) "", ?_, rfl⟩
    have h5 : ridx % 5 < failureReasons.length := Nat.mod_lt _ (by decide)
    rw [List.getD_eq_getElem failureReasons "" h5]
    exact List.getElem_mem h5

/-- C7, witness: `C7_theorem` on a member paying a single pending fine of
25 — the updated collection no longer surfaces the paid fine id. -/
theorem C7_witness :
    ("F1" ∈ sampleRequestM2.fineIds)
      ∧ ∀ g ∈ getUserFines "M2"
          (processPayment true "P" "T" 0 0 sampleRequestM2 [sampleFine] []).2.1,
          g.id ≠ "F1" :=
  ⟨by decide,
   C7_theorem.2.1 "P" "T" 0 0 sampleRequestM2 [sampleFine] [] "M2" "F1" (by decide)⟩

/-- C10: on a successful `processPayment` run, a stored fine is flipped to
paid exactly when its id appears in the request's fineIds — a fine whose
memberId differs from the request's member is still flipped (concrete run
below), a fine whose id is not selected is kept identically, and a
selected id matching no stored fine changes nothing and still reports
success. -/
theorem C10_theorem :
    (∀ (pid txn : String) (ridx : Nat) (now : Int) (req : PaymentRequest)
        (fines : List FineRecord) (payments : List PaymentRecord) (f : FineRecord),
        f ∈ fines → f.id ∈ req.fineIds →
        { f with status := FineStatus.paid }
          ∈ (processPayment true pid txn ridx now req fines payments).2.1)
      ∧ (∀ (pid txn : String) (ridx : Nat) (now : Int) (req : PaymentRequest)
          (fines : List FineRecord) (payments : List PaymentRecord) (f : FineRecord),
          f ∈ fines → f.id ∉ req.fineIds →
          f ∈ (processPayment true pid txn ridx now req fines payments).2.1)
      ∧ (∀ (pid txn : String) (ridx : Nat) (now : Int) (req : PaymentRequest)
          (fines : List FineRecord) (payments : List PaymentRecord),
          (∀ f ∈ fines, f.id ∉ req.fineIds) →
          (processPayment true pid txn ridx now req fines payments).2.1 = fines
            ∧ (processPayment true pid txn ridx now req fines payments).1.success = true)
      ∧ (processPayment true "P" "T" 0 0 sampleRequestM1 [sampleFine] []).2.1
          = [{ sampleFine with status := FineStatus.paid }] := by
  have hchar : ∀ (pid txn : String) (ridx : Nat) (now : Int) (req : PaymentRequest)
      (fines : List FineRecord) (payments : List PaymentRecord),
      (processPayment true pid txn ridx now req fines payments).2.1
        = fines.map (fun f =>
            if req.fineIds.contains f.id then { f with status := FineStatus.paid } else f) :=
    fun _ _ _ _ _ _ _ => rfl
  refine ⟨?_, ?_, ?_, by decide⟩
  · intro pid txn ridx now req fines payments f hf hid
    rw [hchar]
    have := List.mem_map_of_mem
      (fun f => if req.fineIds.contains f.id then { f with status := FineStatus.paid } else f) hf
    dsimp only at this
    rwa [if_pos ((contains_iff_mem_str _ _).mpr hid)] at this
  · intro pid txn ridx now req fines payments f hf hid
    rw [hchar]
    have := List.mem_map_of_mem
      (fun f => if req.fineIds.contains f.id then { f with status := FineStatus.paid } else f) hf
    dsimp only at this
    rwa [if_neg (fun hc => hid ((contains_iff_mem_str _ _).mp hc))] at this
  · intro pid txn ridx now req fines payments hall
    refine ⟨?_, rfl⟩
    rw [hchar]
    conv_rhs => rw [← List.map_id fines]
    apply List.map_congr_left
    intro f hf
    rw [if_neg (fun hc => hall f hf ((contains_iff_mem_str _ _).mp hc))]
    rfl

/-- C10, witness: `C10_theorem` flipping a fine whose memberId differs
from the paying member. -/
theorem C10_witness :
    sampleFine ∈ [sampleFine]
      ∧ sampleFine.id ∈ sampleRequestM1.fineIds
      ∧ { sampleFine with status := FineStatus.paid }
          ∈ (processPayment true "P" "T" 0 0 sampleRequestM1 [sampleFine] []).2.1 :=
  ⟨by decide, by decide,
   C10_theorem.1 "P" "T" 0 0 sampleRequestM1 [sampleFine] [] sampleFine
     (by decide) (by decide)⟩

/-! ### C8 — returning a borrow record -/

theorem findBook_setBookAvailability (books : List Book) (bid : String) (v : Int) :
    findBook (setBookAvailability books bid v) bid
      = (findBook books bid).map (fun b =>
          { b with availableCopies := v, isAvailable := decide (0 < v) }) := by
  induction books with
  | nil => simp [setBookAvailability, findBook]
  | cons b bs ih =>
    by_cases h : b.id == bid
    · simp [setBookAvailability, h, findBook_cons]
    · simp [setBookAvailability, h, findBook_cons, ih]

theorem returnBooks_single (books : List Book) (bid : String) (b : Book)
    (hfind : findBook books bid = some b) :
    (findBook (returnBooks books [bid] [1]).2 bid).map Book.availableCopies
      = some (min b.totalCopies (b.availableCopies + 1)) := by
  show (findBook (updateMultipleBooksAvailability books
      (returnUpdates books (effQuantities [bid] [1]))) bid).map Book.availableCopies = _
  have he : effQuantities [bid] [1] = [(bid, 1)] := rfl
  rw [he]
  show (findBook (updateMultipleBooksAvailability books
      (returnUpdates books [(bid, 1)])) bid).map Book.availableCopies = _
  simp only [returnUpdates, List.filterMap_cons, List.filterMap_nil, hfind,
    Option.map_some']
  show (findBook (setBookAvailability books bid
      (min b.totalCopies (b.availableCopies + 1))) bid).map Book.availableCopies = _
  rw [findBook_setBookAvailability, hfind]
  rfl

theorem recordReturn_none_eq (records : List BorrowRecord) (rid : String) (now : Int)
    (h : (recordReturn records rid now).1 = none) :
    (recordReturn records rid now).2 = records := by
  induction records with
  | nil => rfl
  | cons r rs ih =>
    by_cases hid : r.id == rid
    · cases hrd : r.returnDate with
      | none =>
        simp only [recordReturn, if_pos hid, hrd] at h
        exact Option.noConfusion h
      | some t => simp only [recordReturn, if_pos hid, hrd]
    · simp only [recordReturn, if_neg hid] at h ⊢
      rw [ih h]

theorem recordReturn_some (records : List BorrowRecord) (rid : String) (now : Int)
    (r : BorrowRecord) (h : (recordReturn records rid now).1 = some r) :
    r.returnDate = none ∧ r ∈ records
      ∧ { r with returnDate := some now } ∈ (recordReturn records rid now).2 := by
  induction records with
  | nil => simp [recordReturn] at h
  | cons q rs ih =>
    by_cases hid : q.id == rid
    · cases hrd : q.returnDate with
      | none =>
        simp only [recordReturn, if_pos hid, hrd, Option.some.injEq] at h ⊢
        subst h
        exact ⟨hrd, List.mem_cons_self _ _, List.mem_cons_self _ _⟩
      | some t =>
        simp only [recordReturn, if_pos hid, hrd] at h
        exact Option.noConfusion h
    · simp only [recordReturn, if_neg hid] at h ⊢
      obtain ⟨h1, h2, h3⟩ := ih h
      exact ⟨h1, List.mem_cons_of_mem _ h2, List.mem_cons_of_mem _ h3⟩

theorem recordReturn_idem (records : List BorrowRecord) (rid : String) (now now2 : Int) :
    recordReturn (recordReturn records rid now).2 rid now2
      = (none, (recordReturn records rid now).2) := by
  induction records with
  | nil => rfl
  | cons r rs ih =>
    by_cases hid : r.id == rid
    · cases hrd : r.returnDate with
      | none =>
        simp only [recordReturn, if_pos hid, hrd]
      | some t =>
        simp only [recordReturn, if_pos hid, hrd]
    · simp only [recordReturn, if_neg hid]
      rw [ih]

/-- C8: `BookService.returnBooks` with quantity 1 credits the book's
availableCopies by exactly 1, capped at totalCopies; and the return flow
over a BorrowRecord (`recordReturn`, modelled from the spec since no code
under src/ ever sets a record's return timestamp) sets the timestamp only
on a record that has none, is a no-op when the record is missing or
already returned, and the composite flow is idempotent — a second return
of the same record changes neither the ledger nor the inventory, so the
inventory is never credited twice. -/
theorem C8_theorem :
    (∀ (books : List Book) (bid : String) (b : Book),
        findBook books bid = some b →
        (findBook (returnBooks books [bid] [1]).2 bid).map Book.availableCopies
          = some (min b.totalCopies (b.availableCopies + 1)))
      ∧ (∀ (records : List BorrowRecord) (rid : String) (now : Int) (r : BorrowRecord),
          (recordReturn records rid now).1 = some r →
          r.returnDate = none ∧ r ∈ records
            ∧ { r with returnDate := some now } ∈ (recordReturn records rid now).2)
      ∧ (∀ (records : List BorrowRecord) (rid : String) (now : Int),
          (recordReturn records rid now).1 = none →
          (recordReturn records rid now).2 = records)
      ∧ (∀ (books : List Book) (records : List BorrowRecord) (rid : String)
          (now now2 : Int),
          returnBorrowRecord (returnBorrowRecord books records rid now).1
              (returnBorrowRecord books records rid now).2 rid now2
            = returnBorrowRecord books records rid now) := by
  refine ⟨returnBooks_single, recordReturn_some, recordReturn_none_eq, ?_⟩
  intro books records rid now now2
  unfold returnBorrowRecord
  cases h1 : recordReturn records rid now with
  | mk res1 recs1 =>
    have hidem : recordReturn recs1 rid now2 = (none, recs1) := by
      have := recordReturn_idem records rid now now2
      rw [h1] at this
      exact this
    cases res1 with
    | some r => simp only [hidem]
    | none => simp only [hidem]

/-- C8, witness: returning into a full shelf caps at totalCopies via
`C8_theorem`. -/
theorem C8_witness :
    findBook [⟨"BK001", 10, 10, true⟩] "BK001" = some ⟨"BK001", 10, 10, true⟩
      ∧ (findBook (returnBooks [⟨"BK001", 10, 10, true⟩] ["BK001"] [1]).2 "BK001").map
          Book.availableCopies = some 10 :=
  ⟨by decide,
   C8_theorem.1 [⟨"BK001", 10, 10, true⟩] "BK001" ⟨"BK001", 10, 10, true⟩ (by decide)⟩

/-! ### C5 — fine generation: dedup, refresh, idempotence -/

theorem fineMatches_facts (memberId bookId : String) (due : Int) (f : FineRecord)
    (h : fineMatches memberId bookId due f = true) :
    f.bookId = bookId ∧ f.memberId = memberId ∧ f.status = FineStatus.pending
      ∧ f.dueDate = due := by
  simp only [fineMatches, Bool.and_eq_true, beq_iff_eq] at h
  tauto

theorem fineMatches_refreshFine (memberId bookId : String) (due today due2 : Int)
    (f : FineRecord) :
    fineMatches memberId bookId due (refreshFine today due2 f)
      = fineMatches memberId bookId due f := rfl

theorem refreshFine_refreshFine (today due due2 : Int) (f : FineRecord) :
    refreshFine today due (refreshFine today due2 f) = refreshFine today due f := rfl

theorem refreshFine_eq_self (today due : Int) (f : FineRecord)
    (hgood : FreshFineOK today f) (hdue : f.dueDate = due) :
    refreshFine today due f = f := by
  obtain ⟨h1, h2, h3⟩ := hgood
  cases f
  simp only [refreshFine]
  dsimp only at hdue h2 h3
  subst hdue
  rw [← h3, ← h2]

theorem fineMatches_mkFine (newId memberId bookId : String) (due today : Int) :
    fineMatches memberId bookId due (mkFine newId memberId bookId due today) = true := by
  simp [fineMatches, mkFine]

theorem freshFineOK_mkFine (newId memberId bookId : String) (due today : Int) :
    FreshFineOK today (mkFine newId memberId bookId due today) := ⟨rfl, rfl, rfl⟩

theorem hasPendingFine_append (A B : List FineRecord) (memberId bookId : String)
    (due : Int) :
    hasPendingFine (A ++ B) memberId bookId due
      = (hasPendingFine A memberId bookId due || hasPendingFine B memberId bookId due) := by
  simp [hasPendingFine, List.any_append]

theorem hasPendingFine_updatePendingFine (L : List FineRecord)
    (memberId bookId bookId2 : String) (due due2 today : Int) :
    hasPendingFine (updatePendingFine memberId bookId2 due2 today L) memberId bookId due
      = hasPendingFine L memberId bookId due := by
  induction L with
  | nil => rfl
  | cons f fs ih =>
    by_cases h : fineMatches memberId bookId2 due2 f = true
    · simp only [updatePendingFine, if_pos h, hasPendingFine, List.any_cons,
        fineMatches_refreshFine]
    · simp only [updatePendingFine, if_neg h, hasPendingFine, List.any_cons]
      rw [show (fs.any (fineMatches memberId bookId due)
            = hasPendingFine fs memberId bookId due) from rfl, ← ih]
      rfl

theorem updatePendingFine_append_left (A B : List FineRecord)
    (memberId bookId : String) (due today : Int)
    (h : hasPendingFine A memberId bookId due = true) :
    updatePendingFine memberId bookId due today (A ++ B)
      = updatePendingFine memberId bookId due today A ++ B := by
  induction A with
  | nil => simp [hasPendingFine] at h
  | cons f fs ih =>
    by_cases hf : fineMatches memberId bookId due f = true
    · simp only [List.cons_append, updatePendingFine, if_pos hf, List.append_eq]
    · simp only [hasPendingFine, List.any_cons, hf, Bool.false_or] at h
      simp only [List.cons_append, updatePendingFine, if_neg hf, List.append_eq]
      rw [ih h]

theorem updatePendingFine_append_right (A B : List FineRecord)
    (memberId bookId : String) (due today : Int)
    (h : hasPendingFine A memberId bookId due = false) :
    updatePendingFine memberId bookId due today (A ++ B)
      = A ++ updatePendingFine memberId bookId due today B := by
  induction A with
  | nil => rfl
  | cons f fs ih =>
    simp only [hasPendingFine, List.any_cons, Bool.or_eq_false_iff] at h
    obtain ⟨hf, htl⟩ := h
    simp only [List.cons_append, updatePendingFine, List.append_eq]
    rw [if_neg (by simp [hf]), ih htl]

theorem updatePendingFine_of_fixed (L : List FineRecord) (memberId bookId : String)
    (due today : Int)
    (h : ∀ f ∈ L, fineMatches memberId bookId due f = true →
        refreshFine today due f = f) :
    updatePendingFine memberId bookId due today L = L := by
  induction L with
  | nil => rfl
  | cons f fs ih =>
    by_cases hf : fineMatches memberId bookId due f = true
    · simp only [updatePendingFine, if_pos hf]
      rw [h f (List.mem_cons_self _ _) hf]
    · simp only [updatePendingFine, if_neg hf]
      rw [ih (fun g hg => h g (List.mem_cons_of_mem _ hg))]

theorem updatePendingFine_idem (L : List FineRecord) (memberId bookId : String)
    (due today : Int) :
    updatePendingFine memberId bookId due today
        (updatePendingFine memberId bookId due today L)
      = updatePendingFine memberId bookId due today L := by
  induction L with
  | nil => rfl
  | cons f fs ih =>
    by_cases hf : fineMatches memberId bookId due f = true
    · have hf2 : fineMatches memberId bookId due (refreshFine today due f) = true := by
        rw [fineMatches_refreshFine]; exact hf
      simp only [updatePendingFine, if_pos hf, if_pos hf2, refreshFine_refreshFine]
    · simp only [updatePendingFine, if_neg hf]
      rw [ih]

theorem mem_updatePendingFine_of_not_match (L : List FineRecord)
    (memberId bookId : String) (due today : Int) (f : FineRecord)
    (hf : f ∈ L) (hnm : fineMatches memberId bookId due f = false) :
    f ∈ updatePendingFine memberId bookId due today L := by
  induction L with
  | nil => cases hf
  | cons g gs ih =>
    by_cases hg : fineMatches memberId bookId due g = true
    · simp only [updatePendingFine, if_pos hg]
      rcases List.mem_cons.mp hf with hgf | hgf
      · subst hgf; rw [hg] at hnm; cases hnm
      · exact List.mem_cons_of_mem _ hgf
    · simp only [updatePendingFine, if_neg hg]
      rcases List.mem_cons.mp hf with hgf | hgf
      · subst hgf; exact List.mem_cons_self _ _
      · exact List.mem_cons_of_mem _ (ih hgf)

theorem fineMatches_paid (memberId bookId : String) (due : Int) (f : FineRecord)
    (h : f.status = FineStatus.paid) : fineMatches memberId bookId due f = false := by
  simp [fineMatches, h]

theorem settledKey_append (memberId : String) (today : Int) (L B : List FineRecord)
    (k : String × Int) (hs : SettledKey memberId today L k) :
    SettledKey memberId today (L ++ B) k := by
  obtain ⟨h1, h2⟩ := hs
  constructor
  · rw [hasPendingFine_append, h1, Bool.true_or]
  · rw [updatePendingFine_append_left L B _ _ _ _ h1, h2]

theorem update_update_eq (memberId : String) (today : Int) (bid bid2 : String)
    (due due2 : Int) (L : List FineRecord)
    (hfix : updatePendingFine memberId bid due today L = L) :
    updatePendingFine memberId bid due today (updatePendingFine memberId bid2 due2 today L)
      = updatePendingFine memberId bid2 due2 today L := by
  induction L with
  | nil => rfl
  | cons f fs ih =>
    by_cases h2 : fineMatches memberId bid2 due2 f = true
    · simp only [updatePendingFine, if_pos h2]
      by_cases h1 : fineMatches memberId bid due f = true
      · have e1 := (fineMatches_facts _ _ _ _ h1).2.2.2
        have e2 := (fineMatches_facts _ _ _ _ h2).2.2.2
        have hdd : due = due2 := by rw [← e1, e2]
        subst hdd
        have h1r : fineMatches memberId bid due (refreshFine today due f) = true := by
          rw [fineMatches_refreshFine]; exact h1
        simp only [updatePendingFine, if_pos h1r, refreshFine_refreshFine]
      · have h1r : ¬ fineMatches memberId bid due (refreshFine today due2 f) = true := by
          rw [fineMatches_refreshFine]; exact h1
        simp only [updatePendingFine, if_neg h1r]
        have hfx : updatePendingFine memberId bid due today fs = fs := by
          have h' := hfix
          simp only [updatePendingFine, if_neg h1] at h'
          exact ((List.cons.injEq _ _ _ _).mp h').2
        rw [hfx]
    · simp only [updatePendingFine, if_neg h2]
      by_cases h1 : fineMatches memberId bid due f = true
      · have h' := hfix
        simp only [updatePendingFine, if_pos h1] at h'
        obtain ⟨hrf, -⟩ := (List.cons.injEq _ _ _ _).mp h'
        simp only [updatePendingFine, if_pos h1, hrf]
      · have h' := hfix
        simp only [updatePendingFine, if_neg h1] at h'
        obtain ⟨-, hfs⟩ := (List.cons.injEq _ _ _ _).mp h'
        simp only [updatePendingFine, if_neg h1]
        rw [ih hfs]

theorem settledKey_update (memberId : String) (today : Int) (bid2 : String) (due2 : Int)
    (L : List FineRecord) (k : String × Int)
    (hs : SettledKey memberId today L k) :
    SettledKey memberId today (updatePendingFine memberId bid2 due2 today L) k := by
  obtain ⟨h1, h2⟩ := hs
  constructor
  · rw [hasPendingFine_updatePendingFine]; exact h1
  · exact update_update_eq memberId today k.1 bid2 k.2 due2 L h2

theorem genFineStep_good (fresh : Nat → String) (memberId : String) (today : Int)
    (st : List FineRecord × List FineRecord × Nat) (p : String × Int)
    (hgood : ∀ f ∈ st.2.1, FreshFineOK today f) :
    ∀ f ∈ (genFineStep fresh memberId today st p).2.1, FreshFineOK today f := by
  unfold genFineStep
  by_cases h1 : p.2 < today
  · rw [if_pos h1]
    by_cases h2 : hasPendingFine st.1 memberId p.1 p.2 = true
    · rw [if_pos h2]; exact hgood
    · rw [if_neg h2]
      by_cases h3 : 0 < overdueDays today p.2
      · rw [if_pos h3]
        intro f hf
        rcases List.mem_append.mp hf with hf | hf
        · exact hgood f hf
        · rw [List.mem_singleton] at hf
          subst hf
          exact freshFineOK_mkFine _ _ _ _ _
      · rw [if_neg h3]; exact hgood
  · rw [if_neg h1]; exact hgood

theorem genFineStep_settled (fresh : Nat → String) (memberId : String) (today : Int)
    (st : List FineRecord × List FineRecord × Nat) (p : String × Int) (k : String × Int)
    (hgood : ∀ f ∈ st.2.1, FreshFineOK today f)
    (hs : SettledKey memberId today (st.1 ++ st.2.1) k) :
    SettledKey memberId today
      ((genFineStep fresh memberId today st p).1
        ++ (genFineStep fresh memberId today st p).2.1) k := by
  unfold genFineStep
  by_cases h1 : p.2 < today
  · rw [if_pos h1]
    by_cases h2 : hasPendingFine st.1 memberId p.1 p.2 = true
    · rw [if_pos h2]
      show SettledKey memberId today
        (updatePendingFine memberId p.1 p.2 today st.1 ++ st.2.1) k
      rw [← updatePendingFine_append_left st.1 st.2.1 _ _ _ _ h2]
      exact settledKey_update memberId today p.1 p.2 _ k hs
    · rw [if_neg h2]
      by_cases h3 : 0 < overdueDays today p.2
      · rw [if_pos h3]
        show SettledKey memberId today
          (st.1 ++ (st.2.1 ++ [mkFine (fresh st.2.2) memberId p.1 p.2 today])) k
        rw [← List.append_assoc]
        exact settledKey_append memberId today _ _ k hs
      · rw [if_neg h3]; exact hs
  · rw [if_neg h1]; exact hs

theorem genFineStep_settles_own (fresh : Nat → String) (memberId : String) (today : Int)
    (st : List FineRecord × List FineRecord × Nat) (p : String × Int)
    (hgood : ∀ f ∈ st.2.1, FreshFineOK today f) (hp : p.2 < today) :
    SettledKey memberId today
      ((genFineStep fresh memberId today st p).1
        ++ (genFineStep fresh memberId today st p).2.1) p := by
  unfold genFineStep
  rw [if_pos hp]
  by_cases h2 : hasPendingFine st.1 memberId p.1 p.2 = true
  · rw [if_pos h2]
    show SettledKey memberId today
      (updatePendingFine memberId p.1 p.2 today st.1 ++ st.2.1) p
    rw [← updatePendingFine_append_left st.1 st.2.1 _ _ _ _ h2]
    constructor
    · rw [hasPendingFine_updatePendingFine, hasPendingFine_append, h2, Bool.true_or]
    · exact updatePendingFine_idem _ _ _ _ _
  · rw [if_neg h2]
    rw [if_pos (overdueDays_pos today p.2 hp)]
    show SettledKey memberId today
      (st.1 ++ (st.2.1 ++ [mkFine (fresh st.2.2) memberId p.1 p.2 today])) p
    have h2f : hasPendingFine st.1 memberId p.1 p.2 = false := by
      cases hx : hasPendingFine st.1 memberId p.1 p.2
      · rfl
      · exact absurd hx h2
    constructor
    · rw [hasPendingFine_append, hasPendingFine_append]
      have : hasPendingFine [mkFine (fresh st.2.2) memberId p.1 p.2 today]
          memberId p.1 p.2 = true := by
        simp [hasPendingFine, fineMatches_mkFine]
      rw [this]
      simp
    · rw [updatePendingFine_append_right st.1 _ _ _ _ _ h2f]
      rw [updatePendingFine_of_fixed]
      intro f hf hm
      rcases List.mem_append.mp hf with hf | hf
      · have hg := hgood f hf
        exact refreshFine_eq_self today p.2 f hg (fineMatches_facts _ _ _ _ hm).2.2.2
      · rw [List.mem_singleton] at hf
        subst hf
        exact refreshFine_eq_self today p.2 _ (freshFineOK_mkFine _ _ _ _ _) rfl

theorem genFold_invariant (fresh : Nat → String) (memberId : String) (today : Int)
    (keys : List (String × Int)) (st : List FineRecord × List FineRecord × Nat)
    (hgood : ∀ f ∈ st.2.1, FreshFineOK today f) :
    (∀ f ∈ (keys.foldl (genFineStep fresh memberId today) st).2.1, FreshFineOK today f)
      ∧ (∀ k, SettledKey memberId today (st.1 ++ st.2.1) k →
          SettledKey memberId today
            ((keys.foldl (genFineStep fresh memberId today) st).1
              ++ (keys.foldl (genFineStep fresh memberId today) st).2.1) k)
      ∧ (∀ p ∈ keys, p.2 < today →
          SettledKey memberId today
            ((keys.foldl (genFineStep fresh memberId today) st).1
              ++ (keys.foldl (genFineStep fresh memberId today) st).2.1) p) := by
  induction keys generalizing st with
  | nil =>
    exact ⟨hgood, fun k h => h, fun p hp => absurd hp (List.not_mem_nil p)⟩
  | cons p rest ih =>
    have hg1 := genFineStep_good fresh memberId today st p hgood
    obtain ⟨g1, g2, g3⟩ := ih (genFineStep fresh memberId today st p) hg1
    refine ⟨g1, ?_, ?_⟩
    · intro k hk
      exact g2 k (genFineStep_settled fresh memberId today st p k hgood hk)
    · intro q hq hq2
      rcases List.mem_cons.mp hq with hq' | hq'
      · subst hq'
        exact g2 q (genFineStep_settles_own fresh memberId today st q hgood hq2)
      · exact g3 q hq' hq2

theorem genFold_fixed (fresh : Nat → String) (memberId : String) (today : Int)
    (keys : List (String × Int)) (G : List FineRecord) (n : Nat)
    (hG : ∀ p ∈ keys, p.2 < today → SettledKey memberId today G p) :
    keys.foldl (genFineStep fresh memberId today) (G, [], n) = (G, [], n) := by
  induction keys with
  | nil => rfl
  | cons p rest ih =>
    have hstep : genFineStep fresh memberId today (G, [], n) p = (G, [], n) := by
      unfold genFineStep
      by_cases h1 : p.2 < today
      · rw [if_pos h1]
        have hs := hG p (List.mem_cons_self _ _) h1
        rw [if_pos hs.1, hs.2]
      · rw [if_neg h1]
    show rest.foldl _ (genFineStep fresh memberId today (G, [], n) p) = _
    rw [hstep]
    exact ih (fun q hq => hG q (List.mem_cons_of_mem _ hq))

/-- C5, counterexample: the claim's "at most one FineRecord ever created
per triple, never created again once paid" fails — the dedup lookup of
`generateFineRecordsFromBorrowData` matches only *pending* fines, so with
the triple's only fine already paid and the borrow still outstanding, a
second FineRecord for the same (bookId, memberId, dueDate) triple is
created: the concrete run ends with two fines for the triple. -/
theorem C5_counterexample :
    samplePaidFine.status = FineStatus.paid
      ∧ sampleBorrow.returnDate = none
      ∧ ((generateFineRecordsFromBorrowData (fun _ => "NEW") "M2" 86400000
            [sampleBorrow] [samplePaidFine]).filter
          (fun f => f.bookId == "BK001" && f.memberId == "M2" && f.dueDate == 0)).length
          = 2 :=
  ⟨rfl, rfl, by decide⟩

/-- C5 (amended): `generateFineRecordsFromBorrowData` is idempotent —
invoking it twice in succession with no intervening state change (same
member, same day, same borrow records) returns exactly the fines of the
first invocation, so no duplicate FineRecord is created for a
(bookId, memberId, dueDate) key that has a pending fine (such a fine is
refreshed in place instead); and a paid fine is never mutated or removed.
The dedup key considers only *pending* fines, however, so a triple whose
fine has been paid does get a fresh FineRecord while the borrow remains
outstanding (see the counterexample). -/
theorem C5_theorem :
    (∀ (fresh1 fresh2 : Nat → String) (memberId : String) (today : Int)
        (borrows : List BorrowRecord) (fines : List FineRecord),
        generateFineRecordsFromBorrowData fresh2 memberId today borrows
            (generateFineRecordsFromBorrowData fresh1 memberId today borrows fines)
          = generateFineRecordsFromBorrowData fresh1 memberId today borrows fines)
      ∧ (∀ (fresh : Nat → String) (memberId : String) (today : Int)
          (borrows : List BorrowRecord) (fines : List FineRecord) (f : FineRecord),
          f ∈ fines → f.status = FineStatus.paid →
          f ∈ generateFineRecordsFromBorrowData fresh memberId today borrows fines) := by
  constructor
  · intro fresh1 fresh2 memberId today borrows fines
    obtain ⟨-, -, hsettle⟩ := genFold_invariant fresh1 memberId today
      (userBorrowKeys memberId borrows) (fines, [], 0) (by intro f hf; cases hf)
    show generateFineRecordsFromBorrowData fresh2 memberId today borrows _ = _
    unfold generateFineRecordsFromBorrowData
    rw [genFold_fixed fresh2 memberId today (userBorrowKeys memberId borrows) _ 0 hsettle]
    exact List.append_nil _
  · intro fresh memberId today borrows fines f hf hpaid
    have hstep : ∀ (keys : List (String × Int)) (st : List FineRecord × List FineRecord × Nat),
        f ∈ st.1 → f ∈ (keys.foldl (genFineStep fresh memberId today) st).1 := by
      intro keys
      induction keys with
      | nil => intro st h; exact h
      | cons p rest ih =>
        intro st h
        apply ih
        unfold genFineStep
        by_cases h1 : p.2 < today
        · rw [if_pos h1]
          by_cases h2 : hasPendingFine st.1 memberId p.1 p.2 = true
          · rw [if_pos h2]
            exact mem_updatePendingFine_of_not_match st.1 memberId p.1 p.2 today f h
              (fineMatches_paid memberId p.1 p.2 f hpaid)
          · rw [if_neg h2]
            by_cases h3 : 0 < overdueDays today p.2
            · rw [if_pos h3]; exact h
            · rw [if_neg h3]; exact h
        · rw [if_neg h1]; exact h
    unfold generateFineRecordsFromBorrowData
    exact List.mem_append.mpr (Or.inl (hstep (userBorrowKeys memberId borrows) (fines, [], 0) hf))

/-- C5, witness: a second generation pass over the concrete state of the
counterexample run leaves the fines exactly as they were, and the paid
fine survives, via `C5_theorem`. -/
theorem C5_witness :
    samplePaidFine ∈ [samplePaidFine]
      ∧ samplePaidFine.status = FineStatus.paid
      ∧ samplePaidFine ∈ generateFineRecordsFromBorrowData (fun _ => "NEW") "M2" 86400000
          [sampleBorrow] [samplePaidFine] :=
  ⟨List.mem_singleton.mpr rfl, rfl,
   C5_theorem.2 (fun _ => "NEW") "M2" 86400000 [sampleBorrow] [samplePaidFine]
     samplePaidFine (List.mem_singleton.mpr rfl) rfl⟩

end LibraryMS

